import Mathlib

/-!
# Verification of the fhnw-nlp-utils text-normalization and plotting helpers

Shallow embedding of `fhnw/nlp/utils/normalize.py` and `fhnw/nlp/utils/ploting.py`.
Python strings are modelled as Lean `String`, Python sets as `Finset String`,
Python lists as Lean `List`.  The caller-supplied NLP components
(`word_tokenize`, a stemmer, a spacy pipeline) are parameters of the embedded
functions, exactly as they are external inputs of the source.
-/

set_option linter.unusedVariables false

namespace fhnw

/-- Model of Python `str.lower()`: lowercase every character (basic latin range,
which is also all `Char.toLower` handles). -/
def py_lower (s : String) : String :=
  ⟨s.data.map Char.toLower⟩

theorem char_toLower_idem (c : Char) : c.toLower.toLower = c.toLower := by
  unfold Char.toLower
  by_cases h : c.toNat ≥ 65 ∧ c.toNat ≤ 90
  · rw [if_pos h]
    have hv : (c.toNat + 32).isValidChar := Or.inl (by omega)
    have ht : (Char.ofNat (c.toNat + 32)).toNat = c.toNat + 32 := by
      rw [Char.ofNat, dif_pos hv]
      rfl
    rw [if_neg]
    rw [ht]
    omega
  · rw [if_neg h, if_neg h]

theorem py_lower_idem (s : String) : py_lower (py_lower s) = py_lower s := by
  unfold py_lower
  apply congrArg String.mk
  rw [List.map_map]
  exact List.map_congr_left fun c _ => char_toLower_idem c

/-- A Python value passed as the `text` argument: a raw string, an iterable of
tokens, or anything else (the tag carries the type name used in the error
message). -/
inductive TextUnit where
  | str (s : String)
  | tokens (toks : List String)
  | other (tyName : String)
deriving DecidableEq

/-- Modelled from the spec: `is_iterable` (from `fhnw.nlp.utils.processing`,
which is not part of src/) detects a pre-tokenized ordered sequence of tokens.
On the tagged input type it holds for the `tokens` variant; the
`isinstance(text, str)` check always precedes it in the source, so its value on
raw strings is never observed. -/
def is_iterable : TextUnit → Bool
  | .tokens _ => true
  | _ => false

/-- The guard of `normalize_df`: `isinstance(x, str) or is_iterable(x)`. -/
def is_str_or_iterable (x : TextUnit) : Bool :=
  match x with
  | .str _ => true
  | _ => is_iterable x

/-- The message of the `TypeError` raised on unsupported input kinds. -/
def type_error_msg (tyName : String) : String :=
  "Only string or iterable (e.g. list) is supported. Received a " ++ tyName

/-- `fhnw.nlp.utils.normalize.tokenize`: tokenize a text (or take the tokens as
given) and keep the lowercased tokens that are not stopwords. -/
def tokenize (word_tokenize : String → List String) (text : TextUnit)
    (stopwords : Finset String) : Except String (List String) := do
  let word_tokens : List String ←
    match text with
    | .str s => pure (word_tokenize s)
    | .tokens l => pure l
    | .other ty => throw (type_error_msg ty)
  pure ((word_tokens.filter (fun w => py_lower w ∉ stopwords)).map py_lower)

/-- `fhnw.nlp.utils.normalize.tokenize_stem`: like `tokenize` but each retained
token is replaced by the stemmer's output on the lowercased token. -/
def tokenize_stem (word_tokenize : String → List String) (text : TextUnit)
    (stopwords : Finset String) (stemmer : String → String) :
    Except String (List String) := do
  let word_tokens : List String ←
    match text with
    | .str s => pure (word_tokenize s)
    | .tokens l => pure l
    | .other ty => throw (type_error_msg ty)
  pure ((word_tokens.filter (fun w => py_lower w ∉ stopwords)).map
    (fun w => stemmer (py_lower w)))

/-- One spacy token annotation, as consumed by `tokenize_lemma`: character
offset (`idx`), surface text, lemma (`lemma_`), and the alphabetic/punctuation
flags. -/
structure Token where
  idx : Nat
  text : String
  lemma_ : String
  is_alpha : Bool
  is_punct : Bool
deriving DecidableEq, Inhabited

/-- One spacy entity span: start/end character offsets and the span lemma. -/
structure Ent where
  start_char : Nat
  end_char : Nat
  lemma_ : String
deriving DecidableEq, Inhabited

/-- A spacy annotated document: the token sequence and the entity spans. -/
structure Doc where
  toks : List Token
  ents : List Ent
deriving DecidableEq, Inhabited

/-- Modelled from the spec: `join_tokens` (from `fhnw.nlp.utils.text`, which is
not part of src/) rejoins a pre-tokenized sequence into a single string with a
space between tokens; the stopword argument filters tokens before joining.  The
source only ever calls it with the empty set. -/
def join_tokens (toks : List String) (stopwords : Finset String) : String :=
  String.intercalate " " (toks.filter (fun w => w ∉ stopwords))

/-- The per-token filter of `tokenize_lemma` (both paths):
`tok.is_alpha and not tok.is_punct and tok.text.lower() not in stopwords and
tok.lemma_.lower() not in stopwords`. -/
def token_filter (stopwords : Finset String) (t : Token) : Bool :=
  t.is_alpha && !t.is_punct &&
    decide (py_lower t.text ∉ stopwords) && decide (py_lower t.lemma_ ∉ stopwords)

/-- The inner `while` loop of the NER merge: starting at `i`, advance the token
cursor while it points at a token whose start offset is before `end_char`. -/
def advance_past (toks : List Token) (end_char : Nat) (i : Nat) : Nat :=
  if h : i < toks.length then
    if (toks.get ⟨i, h⟩).idx < end_char then advance_past toks end_char (i + 1) else i
  else i
termination_by toks.length - i

theorem advance_past_ge (toks : List Token) (c i : Nat) : i ≤ advance_past toks c i := by
  rw [advance_past]
  split
  · split
    · exact Nat.le_trans (Nat.le_succ i) (advance_past_ge toks c (i + 1))
    · exact Nat.le_refl i
  · exact Nat.le_refl i
termination_by toks.length - i

theorem advance_past_le_length (toks : List Token) (c i : Nat) (h : i ≤ toks.length) :
    advance_past toks c i ≤ toks.length := by
  rw [advance_past]
  split
  · split
    · exact advance_past_le_length toks c (i + 1) (by omega)
    · exact h
  · exact h
termination_by toks.length - i

/-- Every index strictly between the start and the result of `advance_past`
points at a token whose offset is before `end_char`. -/
theorem advance_past_mid (toks : List Token) (c i : Nat) :
    ∀ k, i ≤ k → k < advance_past toks c i → ((toks.getD k default).idx < c) := by
  intro k hik hk
  rw [advance_past] at hk
  split at hk
  · rename_i h
    split at hk
    · rename_i hlt
      rcases Nat.eq_or_lt_of_le hik with heq | hgt
      · subst heq
        rw [List.getD_eq_getElem _ _ h]
        simpa [List.get_eq_getElem] using hlt
      · exact advance_past_mid toks c (i + 1) k hgt hk
    · omega
  · omega
termination_by toks.length - i

/-- `advance_past` stops either at the end of the document or at a token whose
offset is at or past `end_char`. -/
theorem advance_past_stop (toks : List Token) (c i : Nat)
    (h : advance_past toks c i < toks.length) :
    c ≤ (toks.getD (advance_past toks c i) default).idx := by
  by_cases hi : i < toks.length
  · by_cases hlt : (toks.get ⟨i, hi⟩).idx < c
    · rw [advance_past, dif_pos hi, if_pos hlt] at h ⊢
      exact advance_past_stop toks c (i + 1) h
    · rw [advance_past, dif_pos hi, if_neg hlt] at h ⊢
      rw [List.getD_eq_getElem _ _ hi]
      simp only [List.get_eq_getElem] at hlt
      omega
  · rw [advance_past, dif_neg hi] at h
    omega
termination_by toks.length - i

/-- The `while` loop of `tokenize_lemma` with `keep_ners=True` (lines 97-112 of
normalize.py), with the emitted lemmas as the return value.  At each step: if no
entity remains, or the current token starts strictly before the current entity,
the token is filtered and processed individually and the token cursor advances
by one; otherwise the entity's span lemma is emitted once, the token cursor is
advanced past the span, and the entity cursor advances by one. -/
def ner_merge (doc : Doc) (stopwords : Finset String) (tok_idx ner_idx : Nat) :
    List String :=
  if h : tok_idx < doc.toks.length then
    if hn : ner_idx < doc.ents.length then
      if (doc.toks.get ⟨tok_idx, h⟩).idx < (doc.ents.get ⟨ner_idx, hn⟩).start_char then
        (if token_filter stopwords (doc.toks.get ⟨tok_idx, h⟩) then
          [py_lower (doc.toks.get ⟨tok_idx, h⟩).lemma_] else [])
          ++ ner_merge doc stopwords (tok_idx + 1) ner_idx
      else
        py_lower (doc.ents.get ⟨ner_idx, hn⟩).lemma_ ::
          ner_merge doc stopwords
            (advance_past doc.toks (doc.ents.get ⟨ner_idx, hn⟩).end_char (tok_idx + 1))
            (ner_idx + 1)
    else
      (if token_filter stopwords (doc.toks.get ⟨tok_idx, h⟩) then
        [py_lower (doc.toks.get ⟨tok_idx, h⟩).lemma_] else [])
        ++ ner_merge doc stopwords (tok_idx + 1) ner_idx
  else []
termination_by doc.toks.length - tok_idx
decreasing_by
  · omega
  · have := advance_past_ge doc.toks (doc.ents.get ⟨ner_idx, hn⟩).end_char (tok_idx + 1)
    omega
  · omega

/-- `fhnw.nlp.utils.normalize.tokenize_lemma`.  The `lemmanizer` parameter
models the spacy pipeline: it receives the raw text and the list of disabled
pipeline components and returns the annotated document. -/
def tokenize_lemma (lemmanizer : String → List String → Doc) (text : TextUnit)
    (stopwords : Finset String) (keep_ners : Bool) : Except String (List String) := do
  let raw : String ←
    match text with
    | .str s => pure s
    | .tokens l => pure (join_tokens l ∅)
    | .other ty => throw (type_error_msg ty)
  if keep_ners then
    let doc := lemmanizer raw ["tagger", "parser"]
    pure (ner_merge doc stopwords 0 0)
  else
    let doc := lemmanizer raw ["tagger", "parser", "ner"]
    pure ((doc.toks.filter (token_filter stopwords)).map (fun t => py_lower t.lemma_))

/-- `fhnw.nlp.utils.normalize.normalize`: dispatch to the lemmatizer, the
stemmer, or the plain tokenizer, in that priority order. -/
def normalize (word_tokenize : String → List String) (text : TextUnit)
    (stopwords : Finset String) (stemmer : Option (String → String))
    (lemmanizer : Option (String → List String → Doc)) (lemma_with_ner : Bool) :
    Except String (List String) :=
  match lemmanizer with
  | some lem => tokenize_lemma lem text stopwords lemma_with_ner
  | none =>
    match stemmer with
    | some st => tokenize_stem word_tokenize text stopwords st
    | none => tokenize word_tokenize text stopwords

/-- `fhnw.nlp.utils.normalize.normalize_df`: the dataframe is modelled as a map
from column name to that column's rows; the result is the single-column frame
named `field_write`.  A row that is neither a string nor an iterable maps to the
empty list without an error. -/
def normalize_df (word_tokenize : String → List String) (df : String → List TextUnit)
    (stopwords : Finset String) (field_read field_write : String)
    (stemmer : Option (String → String))
    (lemmanizer : Option (String → List String → Doc)) (lemma_with_ner : Bool) :
    String × List (List String) :=
  (field_write,
    (df field_read).map (fun x =>
      if is_str_or_iterable x then
        match normalize word_tokenize x stopwords stemmer lemmanizer lemma_with_ner with
        | .ok l => l
        | .error _ => []
      else []))

/-! ## Plotting helpers (`fhnw/nlp/utils/ploting.py`)

Each helper is modelled by its trace of screen/file output effects, in program
order.  `display` is a `plt.show()` call, `savefig f d` is a
`plt.savefig(f, dpi=d)` call; the drawing commands between them carry no
observable output of their own and are not part of the trace. -/

/-- A screen or file output effect of a plotting helper. -/
inductive PlotEffect where
  | display
  | savefig (filename : String) (dpi : Nat)
deriving DecidableEq

/-- `ploting.plot_grid_search_results`: draws the per-parameter score curves of
a grid search, then saves to `filename` at 300 dpi when given, else shows. -/
def plot_grid_search_results {GridSearch : Type} (gs : GridSearch)
    (filename : Option String) : List PlotEffect :=
  match filename with
  | some f => [PlotEffect.savefig f 300]
  | none => [PlotEffect.display]

/-- `ploting.plot_confusion_matrix`: draws the confusion matrix, then saves to
`filename` at 300 dpi when given, else shows. -/
def plot_confusion_matrix (y_true y_pred : List String) (title : String)
    (percentage : Bool) (filename : Option String) : List PlotEffect :=
  match filename with
  | some f => [PlotEffect.savefig f 300]
  | none => [PlotEffect.display]

/-- A dataframe whose columns hold token lists, as read by
`create_word_cloud`. -/
structure TokenFrame where
  cols : String → List (List String)

/-- `ploting.create_word_cloud`: builds the word-frequency counter by updating
it with every row of the hard-coded `token_lemma` column (the `field` parameter
is not used by the body), then always shows the cloud.  The counter is modelled
as the multiset of all tokens it has been updated with. -/
def create_word_cloud (df : TokenFrame) (label : String) (field : String) :
    Multiset String × List PlotEffect :=
  (((df.cols "token_lemma").map (fun r => (r : Multiset String))).sum,
    [PlotEffect.display])

/-- `ploting.plot_ngram_counts`: draws the bar chart of the most common n-grams
and always shows it; the function has no file-path parameter. -/
def plot_ngram_counts (counter : List (String × Nat)) (n_most_common : Nat)
    (title : String) : List PlotEffect :=
  [PlotEffect.display]

/-- `ploting.plot_feature_importance`: one figure per coefficient row, each
always shown; the function has no file-path parameter. -/
def plot_feature_importance (coef : List (List Rat)) (classes : List String)
    (feature_names : List String) (top_features : Nat) : List PlotEffect :=
  coef.map (fun _ => PlotEffect.display)

/-- A keras-style training history record: per-epoch metric curves. -/
structure HistoryRec where
  accuracy : List Rat
  val_accuracy : List Rat
  loss : List Rat
  val_loss : List Rat
deriving DecidableEq

/-- `ploting.plot_history`: draws the accuracy figure and always shows it
(line 232 of ploting.py runs unconditionally), then draws the loss figure and
saves it to `filename` at 300 dpi when given, else shows it. -/
def plot_history (history : HistoryRec) (filename : Option String) :
    List PlotEffect :=
  [PlotEffect.display] ++
    (match filename with
     | some f => [PlotEffect.savefig f 300]
     | none => [PlotEffect.display])

/-! ## Spec-side predicates used to state the claims -/

/-- Token offsets strictly increase along the document (spacy produces the
tokens in document order at distinct character offsets). -/
def IdxSorted (toks : List Token) : Prop :=
  toks.Pairwise (fun a b => a.idx < b.idx)

/-- The entity span `e` covers exactly the tokens with index in `[i, j)`: a
token's offset lies in the span's character range exactly when its index is in
`[i, j)`. -/
def covers (toks : List Token) (e : Ent) (i j : Nat) : Prop :=
  i < j ∧ j ≤ toks.length ∧
  ∀ k, k < toks.length →
    ((e.start_char ≤ (toks.getD k default).idx ∧ (toks.getD k default).idx < e.end_char)
      ↔ (i ≤ k ∧ k < j))

/-- The lemmas the token-level filter emits for a token segment: the lowercased
lemma of every token that passes `token_filter`, in order. -/
def indiv_lemmas (ts : List Token) (stopwords : Finset String) : List String :=
  (ts.filter (token_filter stopwords)).map (fun t => py_lower t.lemma_)

/-- The spec's wording of the non-NER keep condition: the token is alphabetic,
not punctuation, and neither its surface form nor its lemma (both lowercased)
is in the stopword set. -/
def spec_non_ner_keep (stopwords : Finset String) (t : Token) : Prop :=
  t.is_alpha = true ∧ t.is_punct = false ∧
    py_lower t.text ∉ stopwords ∧ py_lower t.lemma_ ∉ stopwords

instance (stopwords : Finset String) (t : Token) :
    Decidable (spec_non_ner_keep stopwords t) := by
  unfold spec_non_ner_keep
  infer_instance

/-- The spec's wording of the non-NER path result: in document order, the
lowercased lemma of each kept token. -/
def spec_non_ner_result (doc : Doc) (stopwords : Finset String) : List String :=
  (doc.toks.filter (fun t => decide (spec_non_ner_keep stopwords t))).map
    (fun t => py_lower t.lemma_)

/-- Fixture: an annotated document with one entity span covering the first two
tokens ("Angela Merkel", characters 0-13) and one ordinary token after it. -/
def sample_doc : Doc :=
  { toks := [⟨0, "Angela", "Angela", true, false⟩,
             ⟨7, "Merkel", "Merkel", true, false⟩,
             ⟨14, "spricht", "sprechen", true, false⟩],
    ents := [⟨0, 13, "Angela Merkel"⟩] }

/-- Fixture: a pipeline that annotates every text as `sample_doc`. -/
def sample_lem : String → List String → Doc := fun _ _ => sample_doc

/-! ## Helper lemmas -/

theorem tokenize_str_eq (word_tokenize : String → List String) (s : String)
    (S : Finset String) :
    tokenize word_tokenize (.str s) S =
      .ok (((word_tokenize s).filter (fun w => py_lower w ∉ S)).map py_lower) := rfl

theorem tokenize_tokens_eq (word_tokenize : String → List String) (l : List String)
    (S : Finset String) :
    tokenize word_tokenize (.tokens l) S =
      .ok ((l.filter (fun w => py_lower w ∉ S)).map py_lower) := rfl

theorem mem_lower_filter {l : List String} {S : Finset String} {w : String}
    (hw : w ∈ (l.filter (fun v => py_lower v ∉ S)).map py_lower) :
    py_lower w = w ∧ py_lower w ∉ S := by
  rcases List.mem_map.1 hw with ⟨v, hv, rfl⟩
  have hvf := List.of_mem_filter hv
  simp only [decide_eq_true_eq] at hvf
  refine ⟨py_lower_idem v, ?_⟩
  rw [py_lower_idem]
  exact hvf

theorem get_eq_getD {α : Type} [Inhabited α] (l : List α) (k : Nat)
    (hk : k < l.length) : l.get ⟨k, hk⟩ = l.getD k default := by
  rw [List.getD_eq_getElem _ _ hk, List.get_eq_getElem]

theorem idx_lt_of_sorted (toks : List Token) (hs : IdxSorted toks) (k l : Nat)
    (hkl : k < l) (hl : l < toks.length) :
    (toks.getD k default).idx < (toks.getD l default).idx := by
  have hk : k < toks.length := Nat.lt_trans hkl hl
  unfold IdxSorted at hs
  rw [List.getD_eq_getElem _ _ hk, List.getD_eq_getElem _ _ hl]
  have := List.pairwise_iff_get.1 hs ⟨k, hk⟩ ⟨l, hl⟩ hkl
  simpa [List.get_eq_getElem] using this

theorem indiv_lemmas_nil (S : Finset String) : indiv_lemmas [] S = [] := rfl

theorem indiv_lemmas_cons (t : Token) (ts : List Token) (S : Finset String) :
    indiv_lemmas (t :: ts) S =
      (if token_filter S t then [py_lower t.lemma_] else []) ++ indiv_lemmas ts S := by
  unfold indiv_lemmas
  by_cases h : token_filter S t <;> simp [List.filter_cons, h]

/-- Once the entity cursor has run off the end of the entity list, the merge
loop processes every remaining token individually. -/
theorem ner_merge_no_ents (doc : Doc) (S : Finset String) (n k : Nat)
    (hn : doc.ents.length ≤ n) :
    ner_merge doc S k n = indiv_lemmas (doc.toks.drop k) S := by
  by_cases h : k < doc.toks.length
  · rw [ner_merge, dif_pos h, dif_neg (by omega : ¬ n < doc.ents.length)]
    rw [ner_merge_no_ents doc S n (k + 1) hn]
    rw [List.drop_eq_get_cons h, indiv_lemmas_cons]
  · rw [ner_merge, dif_neg h, List.drop_eq_nil_of_le (by omega), indiv_lemmas_nil]
termination_by doc.toks.length - k
decreasing_by omega

/-- While every token before position `m` starts strictly before the current
entity, the merge loop processes the tokens of `[k, m)` individually. -/
theorem ner_merge_indiv_segment (doc : Doc) (S : Finset String) (n : Nat)
    (hn : n < doc.ents.length) (k m : Nat) (hkm : k ≤ m) (hm : m ≤ doc.toks.length)
    (hlt : ∀ p, k ≤ p → p < m →
      (doc.toks.getD p default).idx < (doc.ents.get ⟨n, hn⟩).start_char) :
    ner_merge doc S k n =
      indiv_lemmas ((doc.toks.drop k).take (m - k)) S ++ ner_merge doc S m n := by
  rcases Nat.eq_or_lt_of_le hkm with heq | hklt
  · subst heq
    simp [Nat.sub_self, indiv_lemmas_nil]
  · have hk : k < doc.toks.length := Nat.lt_of_lt_of_le hklt hm
    have hidx : (doc.toks.get ⟨k, hk⟩).idx < (doc.ents.get ⟨n, hn⟩).start_char := by
      have h0 := hlt k (Nat.le_refl k) hklt
      rw [get_eq_getD _ _ hk]
      exact h0
    rw [ner_merge, dif_pos hk, dif_pos hn, if_pos hidx]
    rw [ner_merge_indiv_segment doc S n hn (k + 1) m hklt hm
      (fun p hp1 hp2 => hlt p (by omega) hp2)]
    rw [List.drop_eq_get_cons hk]
    rw [show m - k = (m - (k + 1)) + 1 from by omega, List.take_succ_cons,
      indiv_lemmas_cons, List.append_assoc]
termination_by m - k
decreasing_by omega

/-- `advance_past` lands exactly on `j` when all tokens of `[a, j)` start before
`c` and the token at `j` (if any) does not. -/
theorem advance_past_eq (toks : List Token) (c a j : Nat) (haj : a ≤ j)
    (hj : j ≤ toks.length)
    (hmid : ∀ p, a ≤ p → p < j → (toks.getD p default).idx < c)
    (hstop : ∀ hjl : j < toks.length, c ≤ (toks.getD j default).idx) :
    advance_past toks c a = j := by
  rcases Nat.eq_or_lt_of_le haj with heq | hlt
  · subst heq
    rw [advance_past]
    by_cases h : a < toks.length
    · rw [dif_pos h, if_neg]
      have hs := hstop h
      rw [get_eq_getD _ _ h]
      omega
    · rw [dif_neg h]
  · have ha : a < toks.length := Nat.lt_of_lt_of_le hlt hj
    rw [advance_past, dif_pos ha, if_pos]
    · exact advance_past_eq toks c (a + 1) j hlt hj
        (fun p hp1 hp2 => hmid p (by omega) hp2) hstop
    · have h0 := hmid a (Nat.le_refl a) hlt
      rw [get_eq_getD _ _ ha]
      exact h0
termination_by j - a
decreasing_by omega

/-- The NER merge on a document whose only entity span covers exactly the
tokens `[i, j)`: the tokens before `i` are filtered individually, the span
contributes its lowercased lemma exactly once (with no token-level filtering),
the covered tokens contribute nothing else, and the tokens from `j` on are
filtered individually. -/
theorem ner_merge_single_ent (doc : Doc) (S : Finset String) (e : Ent) (i j : Nat)
    (hents : doc.ents = [e]) (hsort : IdxSorted doc.toks)
    (hcov : covers doc.toks e i j) :
    ner_merge doc S 0 0 =
      indiv_lemmas (doc.toks.take i) S ++
        py_lower e.lemma_ :: indiv_lemmas (doc.toks.drop j) S := by
  obtain ⟨hij, hjlen, hiff⟩ := hcov
  have hilen : i < doc.toks.length := Nat.lt_of_lt_of_le hij hjlen
  have hlen1 : doc.ents.length = 1 := by rw [hents]; rfl
  have hn : 0 < doc.ents.length := by omega
  have hge : doc.ents.get ⟨0, hn⟩ = e := by
    have h0 : doc.ents.getD 0 default = e := by rw [hents]; rfl
    rw [get_eq_getD _ _ hn]
    exact h0
  obtain ⟨hs1, hs2⟩ := (hiff i hilen).2 ⟨Nat.le_refl i, hij⟩
  have hpre : ∀ p, 0 ≤ p → p < i →
      (doc.toks.getD p default).idx < (doc.ents.get ⟨0, hn⟩).start_char := by
    intro p _ hpi
    rw [hge]
    by_contra hcon
    push_neg at hcon
    have hplen : p < doc.toks.length := by omega
    have hlt := idx_lt_of_sorted doc.toks hsort p i hpi hilen
    have := (hiff p hplen).1 ⟨hcon, by omega⟩
    omega
  have hmid : ∀ p, i + 1 ≤ p → p < j →
      (doc.toks.getD p default).idx < (doc.ents.get ⟨0, hn⟩).end_char := by
    intro p hp1 hp2
    rw [hge]
    exact ((hiff p (by omega)).2 ⟨by omega, hp2⟩).2
  have hstop : ∀ hjl : j < doc.toks.length,
      (doc.ents.get ⟨0, hn⟩).end_char ≤ (doc.toks.getD j default).idx := by
    intro hjl
    rw [hge]
    by_contra hcon
    push_neg at hcon
    have hlt2 := idx_lt_of_sorted doc.toks hsort i j hij hjl
    have := (hiff j hjl).1 ⟨by omega, hcon⟩
    omega
  rw [ner_merge_indiv_segment doc S 0 hn 0 i (Nat.zero_le i) (Nat.le_of_lt hilen) hpre]
  rw [ner_merge, dif_pos hilen, dif_pos hn, if_neg (by rw [get_eq_getD _ _ hilen, hge]; omega)]
  rw [advance_past_eq doc.toks (doc.ents.get ⟨0, hn⟩).end_char (i + 1) j hij hjlen hmid hstop]
  rw [ner_merge_no_ents doc S (0 + 1) j (by omega)]
  rw [hge, List.drop_zero, Nat.sub_zero]

/-! ## Claims -/

/-- C3: for every string input and stopword set, `tokenize` returns only
lowercase tokens and no token whose lowercased form is in the stopword set; the
same holds for already-tokenized input. -/
theorem C3_tokenize_lowercase_and_stopword_free
    (word_tokenize : String → List String) (s : String) (l : List String)
    (S : Finset String) :
    (∀ r, tokenize word_tokenize (.str s) S = .ok r →
      ∀ w ∈ r, py_lower w = w ∧ py_lower w ∉ S) ∧
    (∀ r, tokenize word_tokenize (.tokens l) S = .ok r →
      ∀ w ∈ r, py_lower w = w ∧ py_lower w ∉ S) := by
  constructor
  · intro r hr w hw
    rw [tokenize_str_eq] at hr
    cases hr
    exact mem_lower_filter hw
  · intro r hr w hw
    rw [tokenize_tokens_eq] at hr
    cases hr
    exact mem_lower_filter hw

/-- C3 witness: on the input "The Cat" with stopword set containing "the",
tokenize keeps exactly the lowercase non-stopword "cat". -/
theorem C3_witness :
    py_lower "cat" = "cat" ∧ py_lower "cat" ∉ ({"the"} : Finset String) :=
  (C3_tokenize_lowercase_and_stopword_free (fun _ => ["The", "Cat"]) "The Cat" []
    {"the"}).1 ["cat"] (by rfl) "cat" (by decide)

/-- C6: on an already-tokenized sequence with the empty stopword set, `tokenize`
returns exactly the lowercased sequence, and `normalize` with no stemmer and no
lemmatizer is idempotent: applied to that output it returns it unchanged. -/
theorem C6_tokenize_lower_map_and_idempotent
    (word_tokenize : String → List String) (t : List String) :
    tokenize word_tokenize (.tokens t) ∅ = .ok (t.map py_lower) ∧
    normalize word_tokenize (.tokens (t.map py_lower)) ∅ none none false =
      .ok (t.map py_lower) := by
  have hfilter : ∀ l : List String,
      l.filter (fun w => py_lower w ∉ (∅ : Finset String)) = l := by
    intro l
    apply List.filter_eq_self.2
    intro a _
    simp
  constructor
  · rw [tokenize_tokens_eq, hfilter]
  · show tokenize word_tokenize (.tokens (t.map py_lower)) ∅ = _
    rw [tokenize_tokens_eq, hfilter, List.map_map]
    congr 1
    apply List.map_congr_left
    intro a _
    exact py_lower_idem a

/-- C7: the stemming variant filters on the raw lowercased token (not the
stemmed form) and replaces each retained token by the stemmer's output on the
lowercased token.  The two concrete conjuncts separate the behaviors: a token
whose stemmed form is a stopword is still kept, and a token whose raw lowercased
form is a stopword is dropped no matter what the stemmer would return. -/
theorem C7_stem_filters_on_raw_token (word_tokenize : String → List String)
    (S : Finset String) (stemmer : String → String) (l : List String) :
    tokenize_stem word_tokenize (.tokens l) S stemmer =
      .ok ((l.filter (fun w => py_lower w ∉ S)).map (fun w => stemmer (py_lower w))) ∧
    tokenize_stem word_tokenize (.tokens ["Running"]) {"run"}
      (fun w => if w = "running" then "run" else w) = .ok ["run"] ∧
    tokenize_stem word_tokenize (.tokens ["The"]) {"the"} (fun _ => "keep") =
      .ok [] := by
  exact ⟨rfl, rfl, rfl⟩

theorem token_filter_eq_spec (S : Finset String) (t : Token) :
    token_filter S t = decide (spec_non_ner_keep S t) := by
  unfold token_filter spec_non_ner_keep
  by_cases h1 : t.is_alpha <;> by_cases h2 : t.is_punct <;>
    by_cases h3 : py_lower t.text ∈ S <;> by_cases h4 : py_lower t.lemma_ ∈ S <;>
    simp [h1, h2, h3, h4]

/-- C8: the non-NER lemmatization path returns, in document order, exactly the
lowercased lemma of each token that is alphabetic, not punctuation, and whose
surface form and lemma (both lowercased) are absent from the stopword set. -/
theorem C8_non_ner_path (lemmanizer : String → List String → Doc) (s : String)
    (S : Finset String) :
    tokenize_lemma lemmanizer (.str s) S false =
      .ok (spec_non_ner_result (lemmanizer s ["tagger", "parser", "ner"]) S) := by
  have h : tokenize_lemma lemmanizer (.str s) S false =
      .ok (((lemmanizer s ["tagger", "parser", "ner"]).toks.filter
        (token_filter S)).map (fun t => py_lower t.lemma_)) := rfl
  rw [h]
  unfold spec_non_ner_result
  congr 1
  apply congrArg
  apply List.filter_congr
  intro t _
  exact token_filter_eq_spec S t

/-- C4 counterexample: stopword filtering is NOT insensitive to the casing of
the stopword-set entries.  "The" is a case variant of the token "the" and is a
member of the stopword set, yet the token is kept, because membership is tested
on the lowercased token against the set entries verbatim. -/
theorem C4_counterexample :
    py_lower "The" = py_lower "the" ∧
    "The" ∈ ({"The"} : Finset String) ∧
    tokenize (fun _ => []) (.tokens ["the"]) {"The"} = .ok ["the"] ∧
    (["the"] : List String) ≠ [] := by
  refine ⟨rfl, by decide, rfl, by decide⟩

/-- C4 amended: stopword membership is insensitive to the casing of the token
(the token is lowercased before the membership test, so a token is dropped iff
its lowercased form is in the set, in `tokenize` as in the stemming variant) but
it is sensitive to the casing of the stopword-set entries. -/
theorem C4_amended_token_casing (word_tokenize : String → List String)
    (S : Finset String) (stemmer : String → String) (w v : String)
    (hcase : py_lower w = py_lower v) :
    tokenize word_tokenize (.tokens [w]) S =
      .ok (if py_lower w ∈ S then [] else [py_lower w]) ∧
    (tokenize word_tokenize (.tokens [w]) S = .ok [] ↔
      tokenize word_tokenize (.tokens [v]) S = .ok []) ∧
    (tokenize_stem word_tokenize (.tokens [w]) S stemmer = .ok [] ↔
      tokenize_stem word_tokenize (.tokens [v]) S stemmer = .ok []) := by
  have h1 : ∀ u : String, tokenize word_tokenize (.tokens [u]) S =
      .ok (if py_lower u ∈ S then [] else [py_lower u]) := by
    intro u
    rw [tokenize_tokens_eq]
    by_cases h : py_lower u ∈ S <;> simp [h]
  have h2 : ∀ u : String, tokenize_stem word_tokenize (.tokens [u]) S stemmer =
      .ok (if py_lower u ∈ S then [] else [stemmer (py_lower u)]) := by
    intro u
    show Except.ok _ = _
    by_cases h : py_lower u ∈ S <;> simp [h]
  refine ⟨h1 w, ?_, ?_⟩
  · rw [h1 w, h1 v, hcase]
  · rw [h2 w, h2 v, hcase]

/-- C4 amended witness: the all-lowercase stopword entry drops the
mixed-case token "The". -/
theorem C4_amended_witness :
    tokenize (fun _ => []) (.tokens ["The"]) {"the"} = .ok [] := by
  rw [(C4_amended_token_casing (fun _ => []) {"the"} (fun u => u) "The" "the"
        (by rfl)).1,
    if_pos (by decide : py_lower "The" ∈ ({"the"} : Finset String))]

/-- C5: the four single-item functions fail exactly on inputs that are neither a
string nor an iterable of tokens, all with the one `TypeError`; `normalize_df`
never fails: it produces a column of the same length where an unsupported row
yields the empty list and every other row yields that row's `normalize`
result. -/
theorem C5_error_contract (word_tokenize : String → List String)
    (stemmer : String → String) (lemmanizer : String → List String → Doc)
    (S : Finset String) (keep_ners : Bool)
    (ost : Option (String → String)) (olem : Option (String → List String → Doc))
    (ner : Bool) (df : String → List TextUnit) (field_read field_write : String) :
    (∀ x, (tokenize word_tokenize x S).isOk = is_str_or_iterable x) ∧
    (∀ x, (tokenize_stem word_tokenize x S stemmer).isOk = is_str_or_iterable x) ∧
    (∀ x, (tokenize_lemma lemmanizer x S keep_ners).isOk = is_str_or_iterable x) ∧
    (∀ x, (normalize word_tokenize x S ost olem ner).isOk = is_str_or_iterable x) ∧
    (∀ ty, tokenize word_tokenize (.other ty) S = .error (type_error_msg ty) ∧
      tokenize_stem word_tokenize (.other ty) S stemmer = .error (type_error_msg ty) ∧
      tokenize_lemma lemmanizer (.other ty) S keep_ners = .error (type_error_msg ty) ∧
      normalize word_tokenize (.other ty) S ost olem ner = .error (type_error_msg ty)) ∧
    ((normalize_df word_tokenize df S field_read field_write ost olem ner).2.length
      = (df field_read).length) ∧
    (∀ i : Fin (df field_read).length,
      (normalize_df word_tokenize df S field_read field_write ost olem ner).2.getD i []
        = (normalize word_tokenize ((df field_read).get i) S ost olem ner).toOption.getD
            []) := by
  have hrow : ∀ x, (if is_str_or_iterable x then
        match normalize word_tokenize x S ost olem ner with
        | .ok l => l
        | .error _ => []
      else []) = (normalize word_tokenize x S ost olem ner).toOption.getD [] := by
    intro x
    cases x <;> cases olem <;> cases ost <;> cases ner <;> rfl
  refine ⟨?_, ?_, ?_, ?_, ?_, ?_, ?_⟩
  · intro x
    cases x <;> rfl
  · intro x
    cases x <;> rfl
  · intro x
    cases x <;> cases keep_ners <;> rfl
  · intro x
    cases x <;> cases olem <;> cases ost <;> cases ner <;> rfl
  · intro ty
    refine ⟨rfl, rfl, rfl, ?_⟩
    cases olem <;> cases ost <;> rfl
  · simp [normalize_df]
  · intro i
    have hi : (i : Nat) <
        ((df field_read).map (fun x =>
          if is_str_or_iterable x then
            match normalize word_tokenize x S ost olem ner with
            | .ok l => l
            | .error _ => []
          else [])).length := by
      simp only [List.length_map]
      exact i.isLt
    show ((df field_read).map _).getD i [] = _
    rw [List.getD_eq_getElem _ _ hi, List.getElem_map]
    rw [List.get_eq_getElem]
    exact hrow _

/-- C5 witness evaluation: on the spec's concrete batch scenario (a string row,
a token-list row and an unsupported row, stopwords containing "a") the output
column is [["b"], ["c", "d"], []]. -/
theorem C5_witness :
    (normalize_df (fun s => if s = "A B" then ["A", "B"] else [])
        (fun _ => [.str "A B", .tokens ["c", "d"], .other "int"])
        {"a"} "text" "token_clean" none none false).2.getD 0 [] = ["b"] ∧
    (normalize_df (fun s => if s = "A B" then ["A", "B"] else [])
        (fun _ => [.str "A B", .tokens ["c", "d"], .other "int"])
        {"a"} "text" "token_clean" none none false).2.getD 2 [] = [] := by
  have h := C5_error_contract (fun s => if s = "A B" then ["A", "B"] else [])
    (fun u => u) (fun _ _ => sample_doc) {"a"} false none none false
    (fun _ => [.str "A B", .tokens ["c", "d"], .other "int"]) "text" "token_clean"
  constructor
  · rw [h.2.2.2.2.2.2 ⟨0, by decide⟩]
    rfl
  · rw [h.2.2.2.2.2.2 ⟨2, by decide⟩]
    rfl

/-- C9: the code record at the failing input: `plot_history` with a filename
still displays the accuracy figure on screen (and saves only the loss figure),
although its docstring says nothing is plotted to the screen when a filename is
set. -/
theorem C9_plot_history_shows_accuracy_despite_filename :
    plot_history ⟨[], [], [], []⟩ (some "model.png") =
      [PlotEffect.display, PlotEffect.savefig "model.png" 300] ∧
    PlotEffect.display ∈ plot_history ⟨[], [], [], []⟩ (some "model.png") := by
  refine ⟨rfl, by decide⟩

/-- C10: `create_word_cloud` ignores its `field` parameter: the word frequencies
always come from the hard-coded `token_lemma` column, so any two field values
give identical results; on a frame whose `token_lemma` and `other` columns
differ, asking for `other` still returns the `token_lemma` frequencies. -/
theorem C10_word_cloud_reads_token_lemma (df : TokenFrame) (label f1 f2 : String) :
    (create_word_cloud df label f1).1 =
      ((df.cols "token_lemma").map (fun r => (r : Multiset String))).sum ∧
    create_word_cloud df label f1 = create_word_cloud df label f2 ∧
    (create_word_cloud ⟨fun c => if c = "token_lemma" then [["a"]] else [["b"]]⟩
      "lbl" "other").1 = ({"a"} : Multiset String) := by
  refine ⟨rfl, rfl, ?_⟩
  decide

/-- C1: for a document whose single entity span covers exactly the tokens
`[i, j)`, the NER-preserving merge of `tokenize_lemma` (keep_ners=True) emits
the span's lowercased lemma exactly once in place of the covered tokens, emits
no individual lemma for the tokens `i..j-1` (no token-level filter is consulted
for them or for the span), and filters every other token individually. -/
theorem C1_single_entity_span (lemmanizer : String → List String → Doc)
    (s : String) (S : Finset String) (e : Ent) (i j : Nat)
    (hents : (lemmanizer s ["tagger", "parser"]).ents = [e])
    (hsort : IdxSorted (lemmanizer s ["tagger", "parser"]).toks)
    (hcov : covers (lemmanizer s ["tagger", "parser"]).toks e i j) :
    tokenize_lemma lemmanizer (.str s) S true =
      .ok (indiv_lemmas ((lemmanizer s ["tagger", "parser"]).toks.take i) S ++
        py_lower e.lemma_ ::
          indiv_lemmas ((lemmanizer s ["tagger", "parser"]).toks.drop j) S) := by
  have h : tokenize_lemma lemmanizer (.str s) S true =
      .ok (ner_merge (lemmanizer s ["tagger", "parser"]) S 0 0) := rfl
  rw [h, ner_merge_single_ent (lemmanizer s ["tagger", "parser"]) S e i j hents
    hsort hcov]

/-- C1 witness: on the fixture document ("Angela Merkel" entity over tokens
[0, 2), then "spricht"), the merge emits the span lemma once and the remaining
token's lemma. -/
theorem C1_witness :
    tokenize_lemma sample_lem (.str "Angela Merkel spricht") ∅ true =
      .ok ["angela merkel", "sprechen"] := by
  have h := C1_single_entity_span sample_lem "Angela Merkel spricht" ∅
    ⟨0, 13, "Angela Merkel"⟩ 0 2 (by rfl)
    (by unfold IdxSorted; decide) (by unfold covers; decide)
  rw [h]
  rfl

/-- C2: one step of the NER merge loop at any in-range token cursor: with no
entity left, or with the token starting strictly before the current entity, the
token is filtered and emitted individually and the token cursor advances by
one; otherwise the entity's lowercased span lemma is emitted exactly once, the
token cursor advances past every token whose start offset is less than the
entity's end offset (and no further), and the entity cursor advances by one. -/
theorem C2_merge_step (doc : Doc) (S : Finset String) (ti ni : Nat)
    (h : ti < doc.toks.length) :
    (doc.ents.length ≤ ni →
      ner_merge doc S ti ni =
        (if token_filter S (doc.toks.get ⟨ti, h⟩) then
          [py_lower (doc.toks.get ⟨ti, h⟩).lemma_] else []) ++
          ner_merge doc S (ti + 1) ni) ∧
    (∀ hn : ni < doc.ents.length,
      (doc.toks.get ⟨ti, h⟩).idx < (doc.ents.get ⟨ni, hn⟩).start_char →
      ner_merge doc S ti ni =
        (if token_filter S (doc.toks.get ⟨ti, h⟩) then
          [py_lower (doc.toks.get ⟨ti, h⟩).lemma_] else []) ++
          ner_merge doc S (ti + 1) ni) ∧
    (∀ hn : ni < doc.ents.length,
      (doc.ents.get ⟨ni, hn⟩).start_char ≤ (doc.toks.get ⟨ti, h⟩).idx →
      (ner_merge doc S ti ni =
        py_lower (doc.ents.get ⟨ni, hn⟩).lemma_ ::
          ner_merge doc S
            (advance_past doc.toks (doc.ents.get ⟨ni, hn⟩).end_char (ti + 1))
            (ni + 1)) ∧
      ti < advance_past doc.toks (doc.ents.get ⟨ni, hn⟩).end_char (ti + 1) ∧
      advance_past doc.toks (doc.ents.get ⟨ni, hn⟩).end_char (ti + 1) ≤
        doc.toks.length ∧
      (∀ k, ti < k →
        k < advance_past doc.toks (doc.ents.get ⟨ni, hn⟩).end_char (ti + 1) →
        (doc.toks.getD k default).idx < (doc.ents.get ⟨ni, hn⟩).end_char) ∧
      (advance_past doc.toks (doc.ents.get ⟨ni, hn⟩).end_char (ti + 1) <
          doc.toks.length →
        (doc.ents.get ⟨ni, hn⟩).end_char ≤
          (doc.toks.getD
            (advance_past doc.toks (doc.ents.get ⟨ni, hn⟩).end_char (ti + 1))
            default).idx) ∧
      (IdxSorted doc.toks →
        ∀ k, k < doc.toks.length →
          (doc.toks.getD k default).idx < (doc.ents.get ⟨ni, hn⟩).end_char →
          k < advance_past doc.toks (doc.ents.get ⟨ni, hn⟩).end_char (ti + 1))) := by
  refine ⟨?_, ?_, ?_⟩
  · intro hle
    rw [ner_merge, dif_pos h, dif_neg (by omega : ¬ ni < doc.ents.length)]
  · intro hn hlt
    rw [ner_merge, dif_pos h, dif_pos hn, if_pos hlt]
  · intro hn hge
    have hnotlt : ¬ (doc.toks.get ⟨ti, h⟩).idx <
        (doc.ents.get ⟨ni, hn⟩).start_char := by omega
    have hge1 := advance_past_ge doc.toks (doc.ents.get ⟨ni, hn⟩).end_char (ti + 1)
    refine ⟨?_, by omega, ?_, ?_, ?_, ?_⟩
    · rw [ner_merge, dif_pos h, dif_pos hn, if_neg hnotlt]
    · exact advance_past_le_length _ _ _ (by omega)
    · intro k hk1 hk2
      exact advance_past_mid doc.toks _ (ti + 1) k (by omega) hk2
    · intro hlen
      exact advance_past_stop doc.toks _ (ti + 1) hlen
    · intro hsort k hk hidx
      by_contra hcon
      push_neg at hcon
      have halen : advance_past doc.toks (doc.ents.get ⟨ni, hn⟩).end_char (ti + 1) <
          doc.toks.length := Nat.lt_of_le_of_lt hcon hk
      have hstop := advance_past_stop doc.toks
        (doc.ents.get ⟨ni, hn⟩).end_char (ti + 1) halen
      rcases Nat.eq_or_lt_of_le hcon with heq | hlt2
      · rw [heq] at hstop
        omega
      · have := idx_lt_of_sorted doc.toks hsort _ k hlt2 hk
        omega

/-- C2 witness: on the fixture document at cursors (0, 0) the entity branch
fires: the span lemma is emitted and the token cursor jumps to 2 (past both
covered tokens), the entity cursor to 1. -/
theorem C2_merge_step_witness :
    ner_merge sample_doc ∅ 0 0 =
      py_lower "Angela Merkel" :: ner_merge sample_doc ∅ 2 1 := by
  have h := (C2_merge_step sample_doc ∅ 0 0 (by decide)).2.2 (by decide) (by decide)
  rw [h.1]
  congr 1
  simp [advance_past, sample_doc]

end fhnw
